import Mathlib

/-
Verification development for the gymbot calendar scheduling core
(src/tools/calendar/calendar_manager.py).

The embedding models, faithfully to the Python source:
  * `_is_time_slot_available`  - the interval availability checker;
  * `suggest_workout_times`    - the slot suggestion engine (the external
    busy-interval query is a parameter: its result, ok or error);
  * `create_workout_events`    - the batch event committer, instrumented
    with an explicit action trace recording lock and external-call events;
  * `_get_user_lock` / `_cleanup_old_locks` - the per-user lock registry,
    with Python `Lock()` objects modelled as freshly numbered lock ids;
  * a small two-thread interleaving semantics for the concurrency claims.

Instants are modelled as integers (seconds).  A Python `datetime` is a
wall-clock value together with an optional UTC offset (`none` = naive),
mirroring `tzinfo`; comparison of aware datetimes compares absolute
instants, and `replace(tzinfo=timezone.utc)` keeps the wall-clock value
while setting the offset to zero.
-/

/-- Model of a Python `datetime`: wall-clock seconds plus an optional UTC
offset in seconds (`none` models a naive datetime without `tzinfo`). -/
structure PyDateTime where
  wall : Int
  off : Option Int
deriving DecidableEq, Repr

/-- Absolute instant (UTC seconds) of an aware datetime: wall time minus
its UTC offset.  Only meaningful for aware values; naive values are first
normalized by `ensureAware` wherever the source normalizes them. -/
def PyDateTime.instant (d : PyDateTime) : Int :=
  d.wall - d.off.getD 0

/-- Model of `d.replace(tzinfo=timezone.utc) if d.tzinfo is None else d`:
a naive datetime is tagged as UTC keeping its wall-clock value. -/
def ensureAware (d : PyDateTime) : PyDateTime :=
  if d.off = none then { wall := d.wall, off := some 0 } else d

/-- Model of `CalendarManager._is_time_slot_available`.  Busy intervals
are pairs of absolute instants (the spec's data model makes busy
intervals timezone-aware).  The checker first tags naive candidate
endpoints as UTC, then returns
`not any(start < busy_end and end > busy_start ...)`. -/
def is_time_slot_available (start stop : PyDateTime)
    (busy_times : List (Int × Int)) : Bool :=
  let s := ensureAware start
  let e := ensureAware stop
  !(busy_times.any fun b =>
    decide (s.instant < b.2) && decide (e.instant > b.1))

/-- Model of the `TimeSlot` TypedDict. -/
structure TimeSlot where
  start : PyDateTime
  stop : PyDateTime
deriving DecidableEq, Repr

/-- Errors raised inside the calendar manager: the `assert` statement at
the top of `create_workout_events`, Google API `HttpError`s, and any
other exception. -/
inductive CalError where
  | assertionError
  | httpError (msg : String)
  | unexpected (msg : String)
deriving DecidableEq, Repr

/-- Model of a `WorkoutPlan`: `workouts` is the per-day exercise lists
(their contents do not influence the control flow under study, so a day
is represented by its exercise names). -/
structure WorkoutPlan where
  workouts : List (List String)
deriving DecidableEq, Repr

/-- Behaviour of the external Google Calendar collaborator during one
batch: what the i-th `events().insert(...).execute()` call returns, and
what `events().delete(eventId=id).execute()` returns for each id. -/
structure CalendarService where
  insertResult : Nat → Except CalError String
  deleteResult : String → Except CalError Unit

/-- Observable actions of one `create_workout_events` call, in program
order: the `_get_user_lock` registry access, acquisitions/releases of the
returned per-user lock (the `with user_lock:` blocks), the external
insert/delete calls, and the `logger.error` emitted when a rollback
delete itself fails. -/
inductive CalAction where
  | getLock
  | acquireLock
  | releaseLock
  | insertCall (index : Nat)
  | deleteCall (eventId : String)
  | logRollbackError (eventId : String)
deriving DecidableEq, Repr

/-- The insert loop of `create_workout_events`: starting at index
`start`, perform `count` insert calls.  Returns the first error (if
any), the event ids accumulated in `event_ids` before that error (all
ids on success), and the trace of insert calls made.  The loop stops at
the first failing insert, exactly as the raised exception aborts the
Python `for` loop. -/
def runInserts (svc : CalendarService) (start : Nat) :
    Nat → Option CalError × List String × List CalAction
  | 0 => (none, [], [])
  | count + 1 =>
    match svc.insertResult start with
    | .error e => (some e, [], [.insertCall start])
    | .ok id =>
      let r := runInserts svc (start + 1) count
      (r.1, id :: r.2.1, .insertCall start :: r.2.2)

/-- The rollback loop of `create_workout_events`: delete every
accumulated event id in order; a failing delete is logged
(`logger.error`) and never re-raised, so the loop always continues. -/
def rollbackDeletes (svc : CalendarService) : List String → List CalAction
  | [] => []
  | id :: rest =>
    match svc.deleteResult id with
    | .ok _ => .deleteCall id :: rollbackDeletes svc rest
    | .error _ => .deleteCall id :: .logRollbackError id :: rollbackDeletes svc rest

/-- Model of `CalendarManager.create_workout_events`.  The `assert` on
the two lengths runs first; on mismatch nothing else happens (no
registry access, no lock, no external call).  Otherwise the insert loop
runs inside `with user_lock:`; if an insert fails, the `with` block
releases the lock while the exception propagates, the `except` handler
re-acquires the lock for the rollback loop, and the original error is
re-raised after rollback.  Returns the result visible to the caller and
the full action trace. -/
def create_workout_events (svc : CalendarService)
    (workout_times : List TimeSlot) (workout_plan : WorkoutPlan) :
    Except CalError (List String) × List CalAction :=
  if workout_times.length = workout_plan.workouts.length then
    match runInserts svc 0 workout_times.length with
    | (none, event_ids, itr) =>
      (.ok event_ids, .getLock :: .acquireLock :: itr ++ [.releaseLock])
    | (some e, event_ids, itr) =>
      (.error e,
        .getLock :: .acquireLock :: itr
          ++ [.releaseLock, .acquireLock]
          ++ rollbackDeletes svc event_ids ++ [.releaseLock])
  else
    (.error .assertionError, [])

/-- Extract the payload of a successful insert (dummy value on error;
only ever used at indices proved successful). -/
def okVal : Except CalError String → String
  | .ok s => s
  | .error _ => ""

/-- The event identifiers returned by the first `k` insert calls, in
insertion order. -/
def insertedIds (svc : CalendarService) (k : Nat) : List String :=
  (List.range k).map fun i => okVal (svc.insertResult i)

/-- Event ids of the delete calls occurring in a trace, in order. -/
def deleteCallIds : List CalAction → List String
  | [] => []
  | .deleteCall id :: tr => id :: deleteCallIds tr
  | _ :: tr => deleteCallIds tr

/-- Number of lock acquisitions in a trace. -/
def acquireCount : List CalAction → Nat
  | [] => 0
  | .acquireLock :: tr => acquireCount tr + 1
  | _ :: tr => acquireCount tr

/-- Check that every external insert/delete call in a trace happens
while the lock is held, tracking the current hold depth `d`. -/
def externalsUnderLock : List CalAction → Nat → Bool
  | [], _ => true
  | .acquireLock :: tr, d => externalsUnderLock tr (d + 1)
  | .releaseLock :: tr, d => externalsUnderLock tr (d - 1)
  | .insertCall _ :: tr, d => decide (0 < d) && externalsUnderLock tr d
  | .deleteCall _ :: tr, d => decide (0 < d) && externalsUnderLock tr d
  | _ :: tr, d => externalsUnderLock tr d

/-- A trace made only of insert calls (shape of the insert-loop trace). -/
def onlyInsertCalls : List CalAction → Bool
  | [] => true
  | .insertCall _ :: tr => onlyInsertCalls tr
  | _ => false

/-- A trace made only of delete calls and rollback-failure log entries
(shape of the rollback-loop trace). -/
def onlyRollbackActs : List CalAction → Bool
  | [] => true
  | .deleteCall _ :: tr => onlyRollbackActs tr
  | .logRollbackError _ :: tr => onlyRollbackActs tr
  | _ => false

/-- Model of `days_ahead = days_ahead or self.config.default_days_ahead`:
Python `or` replaces every falsy left operand — both `None` and `0` —
by the configured default. -/
def effective_days_ahead (days_ahead : Option Int) (default_days_ahead : Int) : Int :=
  match days_ahead with
  | none => default_days_ahead
  | some d => if d = 0 then default_days_ahead else d

/-- Query window `[now, now + timedelta(days=days_ahead)]` computed by
`suggest_workout_times`, in seconds. -/
def queryWindow (now : Int) (days_ahead : Option Int) (default_days_ahead : Int) :
    Int × Int :=
  (now, now + 86400 * effective_days_ahead days_ahead default_days_ahead)

/-- Model of `CalendarManager.suggest_workout_times` after the busy
query: the external `events().list(...)` call either fails (its
exception is logged and re-raised unchanged) or yields the list of busy
intervals; every preferred slot passing `_is_time_slot_available`
against those intervals is appended, preserving input order. -/
def suggest_workout_times (queryResult : Except CalError (List (Int × Int)))
    (preferred_times : List TimeSlot) : Except CalError (List TimeSlot) :=
  match queryResult with
  | .error e => .error e
  | .ok busy_times =>
    .ok (preferred_times.filter fun pref =>
      is_time_slot_available pref.start pref.stop busy_times)

/-- One entry of the `_user_locks` dict: user id, the `Lock()` object
(modelled by a fresh numeric identity, since `Lock()` allocates a new
object each time), and the last-used timestamp. -/
structure LockEntry where
  user : Nat
  lockId : Nat
  lastUsed : Int
deriving DecidableEq, Repr

/-- State of the per-user lock registry: the `_user_locks` dict as an
insertion-ordered association list with unique user keys, plus the
counter supplying identities of freshly allocated `Lock()` objects. -/
structure LockRegistry where
  locks : List LockEntry
  nextLockId : Nat
deriving DecidableEq, Repr

/-- The `_cleanup_threshold` attribute (3600 seconds). -/
def cleanupThreshold : Int := 3600

/-- Model of `_cleanup_old_locks`: collect every user whose entry
satisfies `current_time - last_used > threshold` and delete those
entries; held-or-not is never consulted, only the timestamp. -/
def cleanup_old_locks (current_time : Int) (r : LockRegistry) : LockRegistry :=
  { r with locks :=
      r.locks.filter fun e => !decide (current_time - e.lastUsed > cleanupThreshold) }

/-- Dict lookup `self._user_locks[user_id]` on the association list. -/
def lookupUser (uid : Nat) : List LockEntry → Option LockEntry
  | [] => none
  | e :: es => if e.user = uid then some e else lookupUser uid es

/-- Dict update `self._user_locks[user_id] = (lock, current_time)` for an
existing key: the entry keeps its position and lock object, only the
timestamp changes. -/
def touchUser (uid : Nat) (now : Int) : List LockEntry → List LockEntry
  | [] => []
  | e :: es =>
    if e.user = uid then { e with lastUsed := now } :: es
    else e :: touchUser uid now es

/-- Model of `_get_user_lock`: inside the registry-wide critical section
it first runs the cleanup sweep at `current_time`, then either allocates
a fresh `Lock()` for an absent user or bumps the existing entry's
timestamp, and returns the entry's lock object. -/
def get_user_lock (uid : Nat) (current_time : Int) (r : LockRegistry) :
    Nat × LockRegistry :=
  match lookupUser uid (cleanup_old_locks current_time r).locks with
  | none =>
    ((cleanup_old_locks current_time r).nextLockId,
      { locks := (cleanup_old_locks current_time r).locks
          ++ [⟨uid, (cleanup_old_locks current_time r).nextLockId, current_time⟩],
        nextLockId := (cleanup_old_locks current_time r).nextLockId + 1 })
  | some e =>
    (e.lockId,
      { cleanup_old_locks current_time r with
          locks := touchUser uid current_time (cleanup_old_locks current_time r).locks })

/-- Registry whose user keys are pairwise distinct (a dict invariant). -/
abbrev UsersNodup (l : List LockEntry) : Prop :=
  (l.map LockEntry.user).Nodup

/-- Two-thread interleaving model for the concurrency claims.  Each
thread models one batch-commit critical section: program counter 0 =
about to `acquire` its lock, 1 and 2 = about to make an external insert
call, 3 = about to `release`, 4 = finished.  `lid0`/`lid1` are the lock
objects the registry handed to each thread, `held` the set of lock
objects currently held, and `trace` records which thread made each
external call, in global order. -/
structure TwoThreads where
  lid0 : Nat
  lid1 : Nat
  pc0 : Nat
  pc1 : Nat
  held : List Nat
  trace : List Nat
deriving DecidableEq, Repr

/-- One scheduler step: run the next instruction of thread `tid` (0 or
1).  An `acquire` of a lock object someone currently holds does not
advance (the thread stays blocked); every other instruction executes. -/
def threadStep (s : TwoThreads) : Nat → TwoThreads
  | 0 =>
    match s.pc0 with
    | 0 => if s.lid0 ∈ s.held then s
           else { s with held := s.lid0 :: s.held, pc0 := 1 }
    | 1 => { s with trace := s.trace ++ [0], pc0 := 2 }
    | 2 => { s with trace := s.trace ++ [0], pc0 := 3 }
    | 3 => { s with held := s.held.erase s.lid0, pc0 := 4 }
    | _ => s
  | 1 =>
    match s.pc1 with
    | 0 => if s.lid1 ∈ s.held then s
           else { s with held := s.lid1 :: s.held, pc1 := 1 }
    | 1 => { s with trace := s.trace ++ [1], pc1 := 2 }
    | 2 => { s with trace := s.trace ++ [1], pc1 := 3 }
    | 3 => { s with held := s.held.erase s.lid1, pc1 := 4 }
    | _ => s
  | _ => s

/-- Run a whole schedule (list of thread ids) from a state. -/
def runSchedule (s : TwoThreads) (sched : List Nat) : TwoThreads :=
  sched.foldl threadStep s

/-- Initial state: both threads before their `acquire`, no lock held, no
external call made; the threads use lock objects `l0` and `l1`. -/
def initThreads (l0 l1 : Nat) : TwoThreads :=
  ⟨l0, l1, 0, 0, [], []⟩

/-- Number of adjacent thread switches in an external-call trace.  A
two-thread trace is serialized (each thread's calls form one contiguous
block) exactly when it has at most one switch. -/
def switches : List Nat → Nat
  | x :: y :: rest => (if x = y then 0 else 1) + switches (y :: rest)
  | _ => 0

/-- Serialization check for a two-thread external-call trace. -/
def serializedTrace (tr : List Nat) : Bool :=
  decide (switches tr ≤ 1)

/-- Number of external calls a thread at program counter `p` has made
(0 before the first call, 2 from the second call on). -/
def callsMade : Nat → Nat
  | 0 => 0
  | 1 => 0
  | 2 => 1
  | _ => 2

/-- Inductive invariant of the two-thread system when both threads were
handed the same lock object `l`: program counters stay in range, the
lock is held exactly while a thread is inside its critical section,
never by both threads, and the external-call trace consists of (at most)
two contiguous blocks, a later block only starting after the earlier
thread has finished. -/
def LockInv (l : Nat) (s : TwoThreads) : Prop :=
  s.lid0 = l ∧ s.lid1 = l ∧ s.pc0 ≤ 4 ∧ s.pc1 ≤ 4 ∧
  s.held = (if (1 ≤ s.pc0 ∧ s.pc0 ≤ 3) ∨ (1 ≤ s.pc1 ∧ s.pc1 ≤ 3)
    then [l] else []) ∧
  ¬((1 ≤ s.pc0 ∧ s.pc0 ≤ 3) ∧ (1 ≤ s.pc1 ∧ s.pc1 ≤ 3)) ∧
  ∃ firstZero : Bool,
    s.trace = (if firstZero then
        List.replicate (callsMade s.pc0) 0 ++ List.replicate (callsMade s.pc1) 1
      else
        List.replicate (callsMade s.pc1) 1 ++ List.replicate (callsMade s.pc0) 0) ∧
    (firstZero = true → 1 ≤ callsMade s.pc1 → s.pc0 = 4) ∧
    (firstZero = false → 1 ≤ callsMade s.pc0 → s.pc1 = 4)

/-- Concrete slot 09:00-10:00 UTC (in seconds from an epoch). -/
def slotA : TimeSlot :=
  ⟨⟨32400, some 0⟩, ⟨36000, some 0⟩⟩

/-- Concrete slot 11:00-12:00 UTC. -/
def slotB : TimeSlot :=
  ⟨⟨39600, some 0⟩, ⟨43200, some 0⟩⟩

/-- Concrete two-slot batch. -/
def wt2 : List TimeSlot := [slotA, slotB]

/-- Concrete two-day plan matching `wt2`. -/
def wp2 : WorkoutPlan := ⟨[["squat"], ["bench"]]⟩

/-- Calendar double whose first insert succeeds with id "a" and whose
second insert raises; deletes succeed. -/
def svcFail : CalendarService :=
  ⟨fun i => if i = 0 then .ok "a" else .error (.httpError "boom"),
   fun _ => .ok ()⟩

/-- Calendar double whose first insert succeeds, second insert raises,
and whose deletes also raise (exercises the rollback logging path). -/
def svcFailDel : CalendarService :=
  ⟨fun i => if i = 0 then .ok "a" else .error (.httpError "boom"),
   fun _ => .error (.unexpected "gone")⟩

/-- Registry holding one entry: user 1 owns lock object 0, last used at
time 0 (its owner may still be holding the lock object). -/
def reg1 : LockRegistry := ⟨[⟨1, 0, 0⟩], 1⟩

/-
Theorems.  Helper lemmas come first, then one theorem per claim (with
its witness or counterexample where required).
-/

theorem ensureAware_of_ne_none {d : PyDateTime} (h : d.off ≠ none) :
    ensureAware d = d := by
  simp [ensureAware, h]

theorem ensureAware_of_none {d : PyDateTime} (h : d.off = none) :
    ensureAware d = ⟨d.wall, some 0⟩ := by
  simp [ensureAware, h]

theorem ensureAware_utc (w : Int) :
    ensureAware ⟨w, some 0⟩ = ⟨w, some 0⟩ := rfl

/-- C2: for a well-formed candidate slot and any finite busy list, the
availability check returns true iff no busy interval `(bs, be)` has
`start < be` and `end > bs`; any genuine overlap (which subsumes strict
containment, being contained, and partial overlap) yields false, and a
candidate that at most touches every busy interval at an endpoint yields
true. -/
theorem slot_availability_characterization
    (start stop : PyDateTime) (busy : List (Int × Int))
    (hs : start.off ≠ none) (he : stop.off ≠ none)
    (hlt : start.instant < stop.instant) :
    (is_time_slot_available start stop busy = true ↔
      ∀ b ∈ busy, ¬(start.instant < b.2 ∧ stop.instant > b.1)) ∧
    (∀ b ∈ busy, start.instant < b.2 → b.1 < stop.instant →
      is_time_slot_available start stop busy = false) ∧
    ((∀ b ∈ busy, b.2 ≤ start.instant ∨ stop.instant ≤ b.1) →
      is_time_slot_available start stop busy = true) := by
  have hface : ∀ b : Int × Int,
      (decide ((ensureAware start).instant < b.2) &&
       decide ((ensureAware stop).instant > b.1)) = true ↔
      (start.instant < b.2 ∧ stop.instant > b.1) := by
    intro b
    rw [ensureAware_of_ne_none hs, ensureAware_of_ne_none he]
    simp
  have hiff : is_time_slot_available start stop busy = true ↔
      ∀ b ∈ busy, ¬(start.instant < b.2 ∧ stop.instant > b.1) := by
    simp only [is_time_slot_available, Bool.not_eq_true', List.any_eq_false]
    constructor
    · intro h b hb
      rw [← hface b]
      simp [h b hb]
    · intro h b hb
      have := h b hb
      rw [← hface b] at this
      exact this
  refine ⟨hiff, ?_, ?_⟩
  · intro b hb h1 h2
    cases hav : is_time_slot_available start stop busy
    · rfl
    · exact absurd ⟨h1, h2⟩ (hiff.mp hav b hb)
  · intro h
    exact hiff.mpr fun b hb hcon => by
      rcases h b hb with h' | h' <;> omega

/-- Witness for C2: a touching busy interval leaves the slot available;
an overlapping one makes it unavailable. -/
theorem slot_availability_characterization_witness :
    is_time_slot_available ⟨0, some 0⟩ ⟨10, some 0⟩ [(10, 20)] = true ∧
    is_time_slot_available ⟨0, some 0⟩ ⟨10, some 0⟩ [(5, 7)] = false :=
  ⟨(slot_availability_characterization ⟨0, some 0⟩ ⟨10, some 0⟩ [(10, 20)]
      (by decide) (by decide) (by decide)).2.2 (by decide),
   (slot_availability_characterization ⟨0, some 0⟩ ⟨10, some 0⟩ [(5, 7)]
      (by decide) (by decide) (by decide)).2.1 (5, 7) (by decide) (by decide)
      (by decide)⟩

/-- C10: the availability checker normalizes timezone-naive candidate
endpoints instead of rejecting them: a naive endpoint is tagged as UTC
with its wall-clock value kept, and the result equals the result for the
same candidate with the naive endpoints made explicitly UTC-aware; naive
inputs never raise. -/
theorem naive_instants_assumed_utc
    (start stop : PyDateTime) (busy : List (Int × Int)) :
    (start.off = none → ensureAware start = ⟨start.wall, some 0⟩) ∧
    (start.off = none → stop.off = none →
      is_time_slot_available start stop busy
        = is_time_slot_available ⟨start.wall, some 0⟩ ⟨stop.wall, some 0⟩ busy) ∧
    (start.off = none → stop.off ≠ none →
      is_time_slot_available start stop busy
        = is_time_slot_available ⟨start.wall, some 0⟩ stop busy) ∧
    (start.off ≠ none → stop.off = none →
      is_time_slot_available start stop busy
        = is_time_slot_available start ⟨stop.wall, some 0⟩ busy) := by
  refine ⟨fun hs => ensureAware_of_none hs, fun hs he => ?_, fun hs he => ?_,
    fun hs he => ?_⟩
  · simp only [is_time_slot_available, ensureAware_of_none hs, ensureAware_of_none he,
      ensureAware_utc]
  · simp only [is_time_slot_available, ensureAware_of_none hs, ensureAware_of_ne_none he,
      ensureAware_utc]
  · simp only [is_time_slot_available, ensureAware_of_none he, ensureAware_of_ne_none hs,
      ensureAware_utc]

/-- Witness for C10: a fully naive candidate evaluated both ways. -/
theorem naive_instants_assumed_utc_witness :
    is_time_slot_available ⟨5, none⟩ ⟨10, none⟩ [(10, 20)]
      = is_time_slot_available ⟨5, some 0⟩ ⟨10, some 0⟩ [(10, 20)] :=
  (naive_instants_assumed_utc ⟨5, none⟩ ⟨10, none⟩ [(10, 20)]).2.1 rfl rfl

/-- C9: `days_ahead or self.config.default_days_ahead` treats 0 as falsy,
so a caller-supplied lookahead of 0 days is replaced by the configured
default and the query window is `[now, now + default]`, not `[now, now]`. -/
theorem days_ahead_zero_falls_back (now default_days_ahead : Int)
    (hd : default_days_ahead ≠ 0) :
    effective_days_ahead (some 0) default_days_ahead = default_days_ahead ∧
    effective_days_ahead none default_days_ahead = default_days_ahead ∧
    (∀ d : Int, d ≠ 0 → effective_days_ahead (some d) default_days_ahead = d) ∧
    queryWindow now (some 0) default_days_ahead
      = (now, now + 86400 * default_days_ahead) ∧
    queryWindow now (some 0) default_days_ahead ≠ (now, now) := by
  refine ⟨rfl, rfl, fun d hdne => by simp [effective_days_ahead, hdne], rfl, fun habs => ?_⟩
  have h2 : now + 86400 * default_days_ahead = now := congrArg Prod.snd habs
  omega

/-- Witness for C9 at the configured default of 7 days. -/
theorem days_ahead_zero_falls_back_witness :
    effective_days_ahead (some 0) 7 = 7 ∧
    effective_days_ahead none 7 = 7 ∧
    effective_days_ahead (some 3) 7 = 3 ∧
    queryWindow 0 (some 0) 7 = (0, 0 + 86400 * 7) :=
  ⟨(days_ahead_zero_falls_back 0 7 (by decide)).1,
   (days_ahead_zero_falls_back 0 7 (by decide)).2.1,
   (days_ahead_zero_falls_back 0 7 (by decide)).2.2.1 3 (by decide),
   (days_ahead_zero_falls_back 0 7 (by decide)).2.2.2.1⟩

/-- C6: a slot/day-count mismatch fails the `assert` immediately: the
caller sees the assertion error and the action trace is empty — no
registry access (`getLock`), no lock acquisition, no external call. -/
theorem mismatch_precondition_fails_fast (svc : CalendarService)
    (wt : List TimeSlot) (wp : WorkoutPlan)
    (h : wt.length ≠ wp.workouts.length) :
    create_workout_events svc wt wp = (.error .assertionError, []) := by
  simp [create_workout_events, h]

/-- Witness for C6: an empty batch against a two-day plan. -/
theorem mismatch_precondition_fails_fast_witness :
    create_workout_events svcFail [] wp2 = (.error .assertionError, []) :=
  mismatch_precondition_fails_fast svcFail [] wp2 (by decide)

/-- C3: with a successful busy query, `suggest_workout_times` returns
exactly the availability-filtered subsequence of the preferred slots
(a sublist, hence a subset in the original order), none of which
overlaps any busy interval fetched in that call; an empty result is a
valid `ok` outcome, while a query failure propagates unchanged as an
error. -/
theorem suggest_returns_available_subsequence
    (busy : List (Int × Int)) (preferred : List TimeSlot) (e : CalError) :
    suggest_workout_times (.ok busy) preferred =
      .ok (preferred.filter fun p => is_time_slot_available p.start p.stop busy) ∧
    (preferred.filter fun p => is_time_slot_available p.start p.stop busy).Sublist
      preferred ∧
    (∀ p ∈ preferred.filter fun p => is_time_slot_available p.start p.stop busy,
      ∀ b ∈ busy,
        ¬((ensureAware p.start).instant < b.2 ∧ (ensureAware p.stop).instant > b.1)) ∧
    suggest_workout_times (.error e) preferred = .error e ∧
    suggest_workout_times (.ok busy) preferred ≠ .error e := by
  refine ⟨rfl, List.filter_sublist _, ?_, rfl, by simp [suggest_workout_times]⟩
  intro p hp b hb hcon
  have hav := (List.mem_filter.mp hp).2
  simp only [is_time_slot_available, Bool.not_eq_true', List.any_eq_false] at hav
  have := hav b hb
  simp only [Bool.and_eq_true, decide_eq_true_eq, not_and] at this
  exact this hcon.1 hcon.2

theorem cons_map_range {α : Type} (f : Nat → α) (start n : Nat) :
    f start :: (List.range n).map (fun i => f (start + 1 + i)) =
      (List.range (n + 1)).map (fun i => f (start + i)) := by
  have hfun : (fun i => f (start + 1 + i)) = (fun i => f (start + i)) ∘ Nat.succ := by
    funext i
    simp only [Function.comp_apply]
    congr 1
    omega
  rw [List.range_succ_eq_map, List.map_cons, List.map_map, hfun]
  simp

theorem runInserts_all_ok (svc : CalendarService) :
    ∀ count start, (∀ i, i < count → (svc.insertResult (start + i)).isOk = true) →
    runInserts svc start count =
      (none, (List.range count).map (fun i => okVal (svc.insertResult (start + i))),
        (List.range count).map (fun i => CalAction.insertCall (start + i))) := by
  intro count
  induction count with
  | zero => intro start _; simp [runInserts]
  | succ n ih =>
    intro start h
    have h0 : (svc.insertResult start).isOk = true := by
      have := h 0 (Nat.succ_pos n)
      rwa [Nat.add_zero] at this
    cases hins : svc.insertResult start with
    | error e => rw [hins] at h0; simp [Except.isOk, Except.toBool] at h0
    | ok id =>
      have hrec := ih (start + 1) (fun i hi => by
        have := h (i + 1) (by omega)
        rwa [show start + (i + 1) = start + 1 + i by omega] at this)
      simp only [runInserts, hins, hrec, Prod.mk.injEq]
      refine ⟨trivial, ?_, ?_⟩
      · have hid : id = okVal (svc.insertResult start) := by rw [hins]; rfl
        rw [hid]
        exact cons_map_range (fun j => okVal (svc.insertResult j)) start n
      · exact cons_map_range (fun j => CalAction.insertCall j) start n

theorem runInserts_fails_at (svc : CalendarService) :
    ∀ count start k e, k < count →
      svc.insertResult (start + k) = .error e →
      (∀ i, i < k → (svc.insertResult (start + i)).isOk = true) →
      runInserts svc start count =
        (some e, (List.range k).map (fun i => okVal (svc.insertResult (start + i))),
          (List.range (k + 1)).map (fun i => CalAction.insertCall (start + i))) := by
  intro count
  induction count with
  | zero => intro start k e hk _ _; omega
  | succ n ih =>
    intro start k e hk herr hok
    cases k with
    | zero =>
      rw [Nat.add_zero] at herr
      simp [runInserts, herr, List.range_succ]
    | succ m =>
      have h0 : (svc.insertResult start).isOk = true := by
        have := hok 0 (Nat.succ_pos m)
        rwa [Nat.add_zero] at this
      cases hins : svc.insertResult start with
      | error e' => rw [hins] at h0; simp [Except.isOk, Except.toBool] at h0
      | ok id =>
        have hrec := ih (start + 1) m e (by omega)
          (by rwa [show start + 1 + m = start + (m + 1) by omega])
          (fun i hi => by
            have := hok (i + 1) (by omega)
            rwa [show start + (i + 1) = start + 1 + i by omega] at this)
        simp only [runInserts, hins, hrec, Prod.mk.injEq]
        refine ⟨trivial, ?_, ?_⟩
        · have hid : id = okVal (svc.insertResult start) := by rw [hins]; rfl
          rw [hid]
          exact cons_map_range (fun j => okVal (svc.insertResult j)) start m
        · exact cons_map_range (fun j => CalAction.insertCall j) start (m + 1)

theorem deleteCallIds_rollbackDeletes (svc : CalendarService) (ids : List String) :
    deleteCallIds (rollbackDeletes svc ids) = ids := by
  induction ids with
  | nil => rfl
  | cons id rest ih =>
    cases h : svc.deleteResult id <;> simp [rollbackDeletes, h, deleteCallIds, ih]

theorem deleteCallIds_append (l1 l2 : List CalAction) :
    deleteCallIds (l1 ++ l2) = deleteCallIds l1 ++ deleteCallIds l2 := by
  induction l1 with
  | nil => rfl
  | cons a tr ih => cases a <;> simp [deleteCallIds, ih]

theorem deleteCallIds_insertCalls (l : List Nat) :
    deleteCallIds (l.map CalAction.insertCall) = [] := by
  induction l with
  | nil => rfl
  | cons a tr ih => simp [deleteCallIds, ih]

theorem logRollbackError_mem_rollbackDeletes (svc : CalendarService)
    (ids : List String) (id : String) (hmem : id ∈ ids)
    (hfail : (svc.deleteResult id).isOk = false) :
    CalAction.logRollbackError id ∈ rollbackDeletes svc ids := by
  induction ids with
  | nil => cases hmem
  | cons a rest ih =>
    rcases List.mem_cons.mp hmem with rfl | hmem'
    · cases h : svc.deleteResult id with
      | ok u => rw [h] at hfail; simp [Except.isOk, Except.toBool] at hfail
      | error e => simp [rollbackDeletes, h]
    · cases h : svc.deleteResult a with
      | ok u =>
        simp only [rollbackDeletes, h, List.mem_cons]
        exact Or.inr (ih hmem')
      | error e =>
        simp only [rollbackDeletes, h, List.mem_cons]
        exact Or.inr (Or.inr (ih hmem'))

/-- C1: if the k-th insert of an n-event batch fails (all earlier ones
succeeding), the rollback issues exactly k delete calls, one per event
id accumulated at indices 0..k-1 in insertion order; a failing rollback
delete only produces a log entry and never displaces the original
insertion error, which is what the caller receives; on full success the
caller receives all n event ids in insertion order. -/
theorem batch_commit_rollback_semantics (svc : CalendarService)
    (wt : List TimeSlot) (wp : WorkoutPlan)
    (hlen : wt.length = wp.workouts.length) :
    (∀ k e, k < wt.length → svc.insertResult k = .error e →
      (∀ i, i < k → (svc.insertResult i).isOk = true) →
      deleteCallIds (create_workout_events svc wt wp).2 = insertedIds svc k ∧
      (deleteCallIds (create_workout_events svc wt wp).2).length = k ∧
      (create_workout_events svc wt wp).1 = .error e ∧
      (∀ id, id ∈ insertedIds svc k → (svc.deleteResult id).isOk = false →
        CalAction.logRollbackError id ∈ (create_workout_events svc wt wp).2)) ∧
    ((∀ i, i < wt.length → (svc.insertResult i).isOk = true) →
      (create_workout_events svc wt wp).1 = .ok (insertedIds svc wt.length)) := by
  constructor
  · intro k e hk herr hok
    have hrun := runInserts_fails_at svc wt.length 0 k e hk
      (by rwa [Nat.zero_add]) (fun i hi => by rw [Nat.zero_add]; exact hok i hi)
    simp only [Nat.zero_add] at hrun
    have hcre : create_workout_events svc wt wp =
        (.error e,
          .getLock :: .acquireLock ::
              ((List.range (k + 1)).map fun i => CalAction.insertCall i)
            ++ [.releaseLock, .acquireLock]
            ++ rollbackDeletes svc (insertedIds svc k) ++ [.releaseLock]) := by
      unfold create_workout_events
      rw [if_pos hlen, hrun]
      rfl
    have h2 := congrArg Prod.snd hcre
    have h1r : (create_workout_events svc wt wp).1 = .error e := by rw [hcre]
    have hdel : deleteCallIds (create_workout_events svc wt wp).2
        = insertedIds svc k := by
      rw [h2]
      simp only [deleteCallIds, List.append_eq, deleteCallIds_append,
        deleteCallIds_insertCalls, deleteCallIds_rollbackDeletes,
        List.nil_append, List.append_nil]
    refine ⟨hdel, by rw [hdel]; simp [insertedIds], h1r, ?_⟩
    intro id hid hfail
    rw [h2]
    have hrb := logRollbackError_mem_rollbackDeletes svc (insertedIds svc k) id hid hfail
    simp only [List.mem_append]
    exact Or.inl (Or.inr hrb)
  · intro hok
    have hrun := runInserts_all_ok svc wt.length 0
      (fun i hi => by rw [Nat.zero_add]; exact hok i hi)
    simp only [Nat.zero_add] at hrun
    unfold create_workout_events
    rw [if_pos hlen, hrun]
    rfl

/-- Witness for C1: a 2-event batch whose second insert fails and whose
rollback delete also fails — one delete call for event "a", the delete
failure only logged, the original insert error re-raised. -/
theorem batch_commit_rollback_semantics_witness :
    deleteCallIds (create_workout_events svcFailDel wt2 wp2).2
      = insertedIds svcFailDel 1 ∧
    (deleteCallIds (create_workout_events svcFailDel wt2 wp2).2).length = 1 ∧
    (create_workout_events svcFailDel wt2 wp2).1 = .error (.httpError "boom") ∧
    CalAction.logRollbackError "a" ∈ (create_workout_events svcFailDel wt2 wp2).2 := by
  have h := (batch_commit_rollback_semantics svcFailDel wt2 wp2 rfl).1 1
    (.httpError "boom") (by decide) rfl
    (fun i hi => by
      have h0 : i = 0 := by omega
      subst h0
      rfl)
  exact ⟨h.1, h.2.1, h.2.2.1, h.2.2.2 "a" (by decide) rfl⟩

theorem onlyInsertCalls_runInserts (svc : CalendarService) :
    ∀ count start, onlyInsertCalls (runInserts svc start count).2.2 = true := by
  intro count
  induction count with
  | zero => intro start; rfl
  | succ n ih =>
    intro start
    cases hins : svc.insertResult start with
    | error e => simp [runInserts, hins, onlyInsertCalls]
    | ok id => simp [runInserts, hins, onlyInsertCalls, ih]

theorem onlyRollbackActs_rollbackDeletes (svc : CalendarService) (ids : List String) :
    onlyRollbackActs (rollbackDeletes svc ids) = true := by
  induction ids with
  | nil => rfl
  | cons id rest ih =>
    cases h : svc.deleteResult id <;> simp [rollbackDeletes, h, onlyRollbackActs, ih]

theorem acquireCount_append (l1 l2 : List CalAction) :
    acquireCount (l1 ++ l2) = acquireCount l1 + acquireCount l2 := by
  induction l1 with
  | nil => simp [acquireCount]
  | cons a tr ih => cases a <;> simp [acquireCount, ih] <;> omega

theorem acquireCount_onlyInsert (l : List CalAction)
    (h : onlyInsertCalls l = true) : acquireCount l = 0 := by
  induction l with
  | nil => rfl
  | cons a tr ih =>
    cases a <;> simp [onlyInsertCalls] at h <;> simp [acquireCount, ih h]

theorem acquireCount_onlyRollback (l : List CalAction)
    (h : onlyRollbackActs l = true) : acquireCount l = 0 := by
  induction l with
  | nil => rfl
  | cons a tr ih =>
    cases a <;> simp [onlyRollbackActs] at h <;> simp [acquireCount, ih h]

theorem externalsUnderLock_onlyInsert (l : List CalAction)
    (hl : onlyInsertCalls l = true) (rest : List CalAction) (d : Nat) (hd : 0 < d) :
    externalsUnderLock (l ++ rest) d = externalsUnderLock rest d := by
  induction l with
  | nil => rfl
  | cons a tr ih =>
    cases a <;> simp [onlyInsertCalls] at hl
    simp [externalsUnderLock, hd, ih hl]

theorem externalsUnderLock_onlyRollback (l : List CalAction)
    (hl : onlyRollbackActs l = true) (rest : List CalAction) (d : Nat) (hd : 0 < d) :
    externalsUnderLock (l ++ rest) d = externalsUnderLock rest d := by
  induction l with
  | nil => rfl
  | cons a tr ih =>
    cases a <;> simp [onlyRollbackActs] at hl <;>
      simp [externalsUnderLock, hd, ih hl]

/-- C4 (amended): the insert loop runs under a first acquisition of the
per-user lock; on failure that acquisition is released while the
exception propagates and the rollback loop runs under a second, separate
acquisition of the same lock — two acquisitions in total, not one —
while every external insert and delete still happens with the lock
held. -/
theorem commit_lock_phases (svc : CalendarService)
    (wt : List TimeSlot) (wp : WorkoutPlan)
    (hlen : wt.length = wp.workouts.length) :
    externalsUnderLock (create_workout_events svc wt wp).2 0 = true ∧
    (∀ ids, (create_workout_events svc wt wp).1 = .ok ids →
      acquireCount (create_workout_events svc wt wp).2 = 1) ∧
    (∀ e, (create_workout_events svc wt wp).1 = .error e →
      acquireCount (create_workout_events svc wt wp).2 = 2 ∧
      ∃ itr rtr, onlyInsertCalls itr = true ∧ onlyRollbackActs rtr = true ∧
        (create_workout_events svc wt wp).2 =
          .getLock :: .acquireLock :: itr
            ++ [.releaseLock, .acquireLock] ++ rtr ++ [.releaseLock]) := by
  rcases hr : runInserts svc 0 wt.length with ⟨err, ids, itr⟩
  have hitr : onlyInsertCalls itr = true := by
    have h := onlyInsertCalls_runInserts svc wt.length 0
    rw [hr] at h
    exact h
  have hrb := onlyRollbackActs_rollbackDeletes svc ids
  cases err with
  | none =>
    have hcre : create_workout_events svc wt wp =
        (.ok ids, .getLock :: .acquireLock :: itr ++ [.releaseLock]) := by
      unfold create_workout_events
      rw [if_pos hlen, hr]
    have h1 := congrArg Prod.fst hcre
    have h2 := congrArg Prod.snd hcre
    refine ⟨?_, fun ids' _ => ?_, fun e he => ?_⟩
    · rw [h2]
      show externalsUnderLock (itr ++ [CalAction.releaseLock]) 1 = true
      rw [externalsUnderLock_onlyInsert itr hitr [CalAction.releaseLock] 1 (by omega)]
      rfl
    · rw [h2]
      show acquireCount (itr ++ [CalAction.releaseLock]) + 1 = 1
      rw [acquireCount_append, acquireCount_onlyInsert itr hitr]
      rfl
    · rw [h1] at he
      exact Except.noConfusion he
  | some e0 =>
    have hcre : create_workout_events svc wt wp =
        (.error e0,
          .getLock :: .acquireLock :: itr ++ [.releaseLock, .acquireLock]
            ++ rollbackDeletes svc ids ++ [.releaseLock]) := by
      unfold create_workout_events
      rw [if_pos hlen, hr]
    have h1 := congrArg Prod.fst hcre
    have h2 := congrArg Prod.snd hcre
    refine ⟨?_, fun ids' hids' => ?_, fun e he => ?_⟩
    · rw [h2]
      show externalsUnderLock
        (((CalAction.getLock :: CalAction.acquireLock :: itr)
          ++ [CalAction.releaseLock, CalAction.acquireLock])
          ++ rollbackDeletes svc ids ++ [CalAction.releaseLock]) 0 = true
      simp only [List.cons_append, List.append_assoc]
      show externalsUnderLock
        (itr ++ ([CalAction.releaseLock, CalAction.acquireLock]
          ++ (rollbackDeletes svc ids ++ [CalAction.releaseLock]))) 1 = true
      rw [externalsUnderLock_onlyInsert itr hitr _ 1 (by omega)]
      show externalsUnderLock
        (rollbackDeletes svc ids ++ [CalAction.releaseLock]) 1 = true
      rw [externalsUnderLock_onlyRollback _ hrb _ 1 (by omega)]
      rfl
    · rw [h1] at hids'
      exact Except.noConfusion hids'
    · constructor
      · rw [h2]
        show acquireCount
          (((CalAction.getLock :: CalAction.acquireLock :: itr)
            ++ [CalAction.releaseLock, CalAction.acquireLock])
            ++ rollbackDeletes svc ids ++ [CalAction.releaseLock]) = 2
        simp only [List.cons_append, List.append_assoc]
        show acquireCount
          (itr ++ ([CalAction.releaseLock, CalAction.acquireLock]
            ++ (rollbackDeletes svc ids ++ [CalAction.releaseLock]))) + 1 = 2
        rw [acquireCount_append, acquireCount_onlyInsert itr hitr]
        rw [show acquireCount
            ([CalAction.releaseLock, CalAction.acquireLock]
              ++ (rollbackDeletes svc ids ++ [CalAction.releaseLock]))
            = acquireCount (rollbackDeletes svc ids ++ [CalAction.releaseLock]) + 1
          from rfl]
        rw [acquireCount_append, acquireCount_onlyRollback _ hrb]
        rfl
      · exact ⟨itr, rollbackDeletes svc ids, hitr, hrb, h2⟩

/-- Witness for C4's amended statement on a concrete failing batch. -/
theorem commit_lock_phases_witness :
    externalsUnderLock (create_workout_events svcFail wt2 wp2).2 0 = true ∧
    acquireCount (create_workout_events svcFail wt2 wp2).2 = 2 :=
  ⟨(commit_lock_phases svcFail wt2 wp2 rfl).1,
   ((commit_lock_phases svcFail wt2 wp2 rfl).2.2 (.httpError "boom") rfl).1⟩

/-- Counterexample to C4 as stated: in a concrete failing batch the
trace shows a release followed by a second acquisition between the
failing insert and the rollback delete — two lock acquisitions, not one
single acquisition spanning insert loop and rollback. -/
theorem single_acquisition_cex :
    (create_workout_events svcFail wt2 wp2).2 =
      [.getLock, .acquireLock, .insertCall 0, .insertCall 1,
       .releaseLock, .acquireLock, .deleteCall "a", .releaseLock] ∧
    acquireCount (create_workout_events svcFail wt2 wp2).2 = 2 ∧
    acquireCount (create_workout_events svcFail wt2 wp2).2 ≠ 1 := by
  refine ⟨rfl, rfl, by decide⟩

/-- Witness for C3 at a concrete busy list (the spec's own scenario:
the first preferred slot conflicts, the second is returned). -/
theorem suggest_returns_available_subsequence_witness :
    suggest_workout_times (.ok [(34200, 35100)]) wt2
      = .ok (wt2.filter fun p =>
          is_time_slot_available p.start p.stop [(34200, 35100)]) ∧
    suggest_workout_times (.error (.httpError "down")) wt2
      = .error (.httpError "down") :=
  ⟨(suggest_returns_available_subsequence [(34200, 35100)] wt2
      (.httpError "down")).1,
   (suggest_returns_available_subsequence [(34200, 35100)] wt2
      (.httpError "down")).2.2.2.1⟩

theorem lookupUser_eq_none_iff (uid : Nat) (l : List LockEntry) :
    lookupUser uid l = none ↔ ∀ e ∈ l, e.user ≠ uid := by
  induction l with
  | nil => simp [lookupUser]
  | cons a tl ih =>
    by_cases h : a.user = uid
    · simp [lookupUser, h]
    · simp [lookupUser, h, ih]

theorem usersNodup_tail {a : LockEntry} {tl : List LockEntry}
    (h : UsersNodup (a :: tl)) : UsersNodup tl :=
  (List.nodup_cons.mp h).2

theorem usersNodup_head_not_mem {a : LockEntry} {tl : List LockEntry}
    (h : UsersNodup (a :: tl)) : a.user ∉ tl.map LockEntry.user :=
  (List.nodup_cons.mp h).1

theorem usersNodup_unique {l : List LockEntry} (hnd : UsersNodup l)
    {x e : LockEntry} (hx : x ∈ l) (he : e ∈ l) (hu : e.user = x.user) : e = x := by
  induction l with
  | nil => cases hx
  | cons a tl ih =>
    rcases List.mem_cons.mp hx with rfl | hxtl
    · rcases List.mem_cons.mp he with rfl | hetl
      · rfl
      · exact absurd (hu ▸ List.mem_map_of_mem LockEntry.user hetl)
          (usersNodup_head_not_mem hnd)
    · rcases List.mem_cons.mp he with rfl | hetl
      · have hx' : x.user ∈ tl.map LockEntry.user :=
          List.mem_map_of_mem LockEntry.user hxtl
        rw [← hu] at hx'
        exact absurd hx' (usersNodup_head_not_mem hnd)
      · exact ih (usersNodup_tail hnd) hxtl hetl

theorem touchUser_map_user (uid : Nat) (now : Int) (l : List LockEntry) :
    (touchUser uid now l).map LockEntry.user = l.map LockEntry.user := by
  induction l with
  | nil => rfl
  | cons a tl ih => by_cases h : a.user = uid <;> simp [touchUser, h, ih]

theorem usersNodup_filter (p : LockEntry → Bool) {l : List LockEntry}
    (h : UsersNodup l) : UsersNodup (l.filter p) :=
  List.Nodup.sublist (List.Sublist.map LockEntry.user (List.filter_sublist l)) h

theorem lookupUser_of_mem_nodup {l : List LockEntry} (hnd : UsersNodup l)
    {e : LockEntry} (he : e ∈ l) : lookupUser e.user l = some e := by
  induction l with
  | nil => cases he
  | cons a tl ih =>
    rcases List.mem_cons.mp he with rfl | htl
    · simp [lookupUser]
    · by_cases h : a.user = e.user
      · exact absurd (h ▸ List.mem_map_of_mem LockEntry.user htl)
          (usersNodup_head_not_mem hnd)
      · simp only [lookupUser, if_neg h]
        exact ih (usersNodup_tail hnd) htl

/-- C5 (amended): inside `_get_user_lock` the cleanup sweep runs before
the timestamp update, and it evicts every entry idle past the threshold
using timestamps alone — held or not.  Hence an entry whose last
acquisition is more than the threshold ago is removed by any other
user's registry access, and even its owner's own re-acquisition returns
a freshly allocated lock object instead of the held one; only an
acquisition within the threshold returns the same lock object. -/
theorem lock_eviction_by_idle_time (r : LockRegistry) (uid lid : Nat) (t : Int)
    (uid' : Nat) (now : Int)
    (hmem : (⟨uid, lid, t⟩ : LockEntry) ∈ r.locks)
    (hnodup : UsersNodup r.locks)
    (hfresh : ∀ e ∈ r.locks, e.lockId < r.nextLockId) :
    (now - t > cleanupThreshold → uid' ≠ uid →
      lookupUser uid (get_user_lock uid' now r).2.locks = none) ∧
    (now - t > cleanupThreshold → (get_user_lock uid now r).1 ≠ lid) ∧
    (now - t ≤ cleanupThreshold → (get_user_lock uid now r).1 = lid) := by
  have hevict : now - t > cleanupThreshold →
      lookupUser uid (cleanup_old_locks now r).locks = none := by
    intro hthr
    rw [lookupUser_eq_none_iff]
    intro e hef hequ
    have hmf := List.mem_filter.mp hef
    have hee : e = ⟨uid, lid, t⟩ :=
      usersNodup_unique hnodup hmem hmf.1 hequ
    have := hmf.2
    rw [hee] at this
    simp only [Bool.not_eq_eq_eq_not, Bool.not_true, decide_eq_false_iff_not] at this
    exact this hthr
  refine ⟨fun hthr hne => ?_, fun hthr => ?_, fun hthr => ?_⟩
  · cases hl : lookupUser uid' (cleanup_old_locks now r).locks with
    | none =>
      have hres : (get_user_lock uid' now r).2.locks
          = (cleanup_old_locks now r).locks
            ++ [⟨uid', (cleanup_old_locks now r).nextLockId, now⟩] := by
        unfold get_user_lock
        rw [hl]
      rw [hres, lookupUser_eq_none_iff]
      intro e hel
      rcases List.mem_append.mp hel with hel' | hel'
      · exact (lookupUser_eq_none_iff uid _).mp (hevict hthr) e hel'
      · rcases List.mem_singleton.mp hel' with rfl
        exact hne
    | some e =>
      have hres : (get_user_lock uid' now r).2.locks
          = touchUser uid' now (cleanup_old_locks now r).locks := by
        unfold get_user_lock
        rw [hl]
      rw [hres, lookupUser_eq_none_iff]
      intro x hx
      have hxu : x.user ∈ (cleanup_old_locks now r).locks.map LockEntry.user := by
        rw [← touchUser_map_user uid' now]
        exact List.mem_map_of_mem LockEntry.user hx
      rcases List.mem_map.mp hxu with ⟨y, hy, hyx⟩
      rw [← hyx]
      exact (lookupUser_eq_none_iff uid _).mp (hevict hthr) y hy
  · have hres : (get_user_lock uid now r).1
        = (cleanup_old_locks now r).nextLockId := by
      unfold get_user_lock
      rw [hevict hthr]
    rw [hres]
    have : lid < r.nextLockId := hfresh _ hmem
    have hpre : (cleanup_old_locks now r).nextLockId = r.nextLockId := rfl
    omega
  · have hkeep : (⟨uid, lid, t⟩ : LockEntry) ∈ (cleanup_old_locks now r).locks := by
      refine List.mem_filter.mpr ⟨hmem, ?_⟩
      have : ¬(now - t > cleanupThreshold) := by omega
      simp [this]
    have hnd1 : UsersNodup (cleanup_old_locks now r).locks :=
      usersNodup_filter _ hnodup
    have hl : lookupUser uid (cleanup_old_locks now r).locks
        = some ⟨uid, lid, t⟩ :=
      lookupUser_of_mem_nodup hnd1 hkeep
    have hres : (get_user_lock uid now r).1 = lid := by
      unfold get_user_lock
      rw [hl]
    exact hres

/-- Witness for C5's amended statement on the concrete one-entry
registry `reg1`. -/
theorem lock_eviction_by_idle_time_witness :
    lookupUser 1 (get_user_lock 2 3601 reg1).2.locks = none ∧
    (get_user_lock 1 100 reg1).1 = 0 :=
  ⟨(lock_eviction_by_idle_time reg1 1 0 0 2 3601 (by decide) (by decide)
      (by decide)).1 (by decide) (by decide),
   (lock_eviction_by_idle_time reg1 1 0 0 1 100 (by decide) (by decide)
      (by decide)).2.2 (by decide)⟩

/-- Counterexample to C5 as stated: user 1's lock object 0 (potentially
held by its owner — the sweep never consults held state) is evicted by
user 2's registry access at time 3601, and user 1's own re-acquisition
at 3601 returns a fresh lock object 1, not the held object 0: the
timestamp is bumped only after the sweep, so continuous holding does not
protect a handle past the threshold. -/
theorem held_lock_evicted_cex :
    lookupUser 1 (get_user_lock 2 3601 reg1).2.locks = none ∧
    (get_user_lock 1 3601 reg1).1 = 1 ∧ (1 : Nat) ≠ 0 := by decide

/-- C7 (amended): the registry's index holds at most one entry per user
id — every `_get_user_lock` call preserves distinctness of user keys —
but handle objects are not unique per user across eviction and
re-creation: after an idle entry is swept, a later acquisition allocates
a fresh `Lock()` object (here, a fresh id) while an in-flight holder
still retains the evicted one, so two live lock objects for the same
user can coexist. -/
theorem registry_index_unique (uid : Nat) (now : Int) (r : LockRegistry)
    (h : UsersNodup r.locks) :
    UsersNodup (get_user_lock uid now r).2.locks ∧
    ((get_user_lock 1 0 ⟨[], 0⟩).1 = 0 ∧
      (get_user_lock 1 3601 (get_user_lock 1 0 ⟨[], 0⟩).2).1 = 1) := by
  refine ⟨?_, rfl, rfl⟩
  have h1 : UsersNodup (cleanup_old_locks now r).locks := usersNodup_filter _ h
  cases hl : lookupUser uid (cleanup_old_locks now r).locks with
  | none =>
    have hres : (get_user_lock uid now r).2.locks
        = (cleanup_old_locks now r).locks
          ++ [⟨uid, (cleanup_old_locks now r).nextLockId, now⟩] := by
      unfold get_user_lock
      rw [hl]
    rw [hres]
    unfold UsersNodup
    rw [List.map_append]
    refine List.nodup_append.mpr ⟨h1, List.nodup_singleton _, ?_⟩
    intro a ha hb
    have hau : a = uid := by
      rcases List.mem_singleton.mp hb with rfl
      rfl
    rcases List.mem_map.mp ha with ⟨y, hy, hyx⟩
    exact (lookupUser_eq_none_iff uid _).mp hl y hy (by rw [hyx, hau])
  | some e =>
    have hres : (get_user_lock uid now r).2.locks
        = touchUser uid now (cleanup_old_locks now r).locks := by
      unfold get_user_lock
      rw [hl]
    rw [hres]
    unfold UsersNodup
    rw [touchUser_map_user]
    exact h1

/-- Witness for C7's amended statement on the concrete registry `reg1`. -/
theorem registry_index_unique_witness :
    UsersNodup (get_user_lock 3 5 reg1).2.locks ∧
    ((get_user_lock 1 0 ⟨[], 0⟩).1 = 0 ∧
      (get_user_lock 1 3601 (get_user_lock 1 0 ⟨[], 0⟩).2).1 = 1) :=
  registry_index_unique 3 5 reg1 (by decide)

/-- Counterexample to C7 as stated: starting from an empty registry,
user 1 is handed lock object 0 at time 0 and — without any release —
lock object 1 at time 3601 (the sweep evicted the first entry), so two
distinct live handle objects for the same user id exist at once. -/
theorem duplicate_live_handles_cex :
    (get_user_lock 1 0 ⟨[], 0⟩).1 = 0 ∧
    (get_user_lock 1 3601 (get_user_lock 1 0 ⟨[], 0⟩).2).1 = 1 ∧
    (0 : Nat) ≠ 1 := by decide

theorem lockInv_step (l : Nat) (s : TwoThreads) (tid : Nat)
    (h : LockInv l s) : LockInv l (threadStep s tid) := by
  obtain ⟨lid0, lid1, pc0, pc1, held, trace⟩ := s
  obtain ⟨h0, h1, hp0, hp1, hheld, hmux, fz, htr, hc1, hc2⟩ := h
  simp only at h0 h1 hp0 hp1 hheld hmux htr hc1 hc2
  rcases tid with _ | _ | n
  · -- tid = 0
    interval_cases pc0
    · -- pc0 = 0: acquire attempt
      show LockInv l (if lid0 ∈ held then _ else _)
      by_cases hmem : lid0 ∈ held
      · rw [if_pos hmem]
        exact ⟨h0, h1, hp0, hp1, hheld, hmux, fz, htr, hc1, hc2⟩
      · rw [if_neg hmem]
        have hA1 : ¬(1 ≤ pc1 ∧ pc1 ≤ 3) := by
          intro hA
          rw [hheld] at hmem
          simp [hA, h0] at hmem
        have hheld0 : held = [] := by
          rw [hheld]
          simp [hA1]
        show LockInv l ⟨lid0, lid1, 1, pc1, lid0 :: held, trace⟩
        simp only [LockInv]
        refine ⟨h0, h1, by omega, hp1, ?_, ?_, fz, ?_, ?_, ?_⟩
        · rw [hheld0, h0]
          simp
        · intro hA
          exact hA1 hA.2
        · rw [htr]
          simp [callsMade]
        · intro hfz hcalls
          exact absurd (hc1 hfz hcalls) (by omega)
        · intro hfz hcalls
          simp [callsMade] at hcalls
    · -- pc0 = 1: first external call
      show LockInv l ⟨lid0, lid1, 2, pc1, held, trace ++ [0]⟩
      have hA1 : ¬(1 ≤ pc1 ∧ pc1 ≤ 3) := fun hA => hmux ⟨by omega, hA⟩
      have hp1' : pc1 = 0 ∨ pc1 = 4 := by omega
      simp only [LockInv]
      refine ⟨h0, h1, by omega, hp1, ?_, ?_, ?_⟩
      · rw [hheld]
        simp [hA1]
      · intro hA
        exact hA1 hA.2
      · cases fz with
        | true =>
          have hcalls0 : ¬(1 ≤ callsMade pc1) := fun hge => by
            have := hc1 rfl hge
            omega
          have hcp1 : callsMade pc1 = 0 := by omega
          refine ⟨true, ?_, ?_, ?_⟩
          · rw [htr, hcp1]
            simp [callsMade]
          · intro _ hcalls
            exact absurd hcalls hcalls0
          · intro hff
            cases hff
        | false =>
          rcases hp1' with rfl | rfl
          · refine ⟨true, ?_, ?_, ?_⟩
            · rw [htr]
              simp [callsMade]
            · intro _ hcalls
              simp [callsMade] at hcalls
            · intro hff
              cases hff
          · refine ⟨false, ?_, ?_, ?_⟩
            · rw [htr]
              simp [callsMade, List.replicate_succ]
            · intro htf
              cases htf
            · intro _ _
              rfl
    · -- pc0 = 2: second external call
      show LockInv l ⟨lid0, lid1, 3, pc1, held, trace ++ [0]⟩
      have hA1 : ¬(1 ≤ pc1 ∧ pc1 ≤ 3) := fun hA => hmux ⟨by omega, hA⟩
      simp only [LockInv]
      refine ⟨h0, h1, by omega, hp1, ?_, ?_, ?_⟩
      · rw [hheld]
        simp [hA1]
      · intro hA
        exact hA1 hA.2
      · cases fz with
        | true =>
          have hcalls0 : ¬(1 ≤ callsMade pc1) := fun hge => by
            have := hc1 rfl hge
            omega
          have hcp1 : callsMade pc1 = 0 := by omega
          refine ⟨true, ?_, ?_, ?_⟩
          · rw [htr, hcp1]
            simp [callsMade, List.replicate_succ]
          · intro _ hcalls
            exact absurd hcalls hcalls0
          · intro hff
            cases hff
        | false =>
          have hp14 : pc1 = 4 := hc2 rfl (by simp [callsMade])
          subst hp14
          refine ⟨false, ?_, ?_, ?_⟩
          · rw [htr]
            simp [callsMade, List.replicate_succ]
          · intro htf
            cases htf
          · intro _ _
            trivial
    · -- pc0 = 3: release
      show LockInv l ⟨lid0, lid1, 4, pc1, held.erase lid0, trace⟩
      have hA1 : ¬(1 ≤ pc1 ∧ pc1 ≤ 3) := fun hA => hmux ⟨by omega, hA⟩
      simp only [LockInv]
      refine ⟨h0, h1, by omega, hp1, ?_, ?_, fz, ?_, ?_, ?_⟩
      · rw [hheld, h0]
        simp [hA1]
      · intro hA
        omega
      · rw [htr]
        simp [callsMade]
      · intro _ _
        trivial
      · intro hfz hcalls
        exact hc2 hfz (by simpa [callsMade] using hcalls)
    · -- pc0 = 4: done
      exact ⟨h0, h1, hp0, hp1, hheld, hmux, fz, htr, hc1, hc2⟩
  · -- tid = 1
    interval_cases pc1
    · show LockInv l (if lid1 ∈ held then _ else _)
      by_cases hmem : lid1 ∈ held
      · rw [if_pos hmem]
        exact ⟨h0, h1, hp0, hp1, hheld, hmux, fz, htr, hc1, hc2⟩
      · rw [if_neg hmem]
        have hA0 : ¬(1 ≤ pc0 ∧ pc0 ≤ 3) := by
          intro hA
          rw [hheld] at hmem
          simp [hA, h1] at hmem
        have hheld0 : held = [] := by
          rw [hheld]
          simp [hA0]
        show LockInv l ⟨lid0, lid1, pc0, 1, lid1 :: held, trace⟩
        simp only [LockInv]
        refine ⟨h0, h1, hp0, by omega, ?_, ?_, fz, ?_, ?_, ?_⟩
        · rw [hheld0, h1]
          simp
        · intro hA
          exact hA0 hA.1
        · rw [htr]
          simp [callsMade]
        · intro hfz hcalls
          simp [callsMade] at hcalls
        · intro hfz hcalls
          exact absurd (hc2 hfz hcalls) (by omega)
    · show LockInv l ⟨lid0, lid1, pc0, 2, held, trace ++ [1]⟩
      have hA0 : ¬(1 ≤ pc0 ∧ pc0 ≤ 3) := fun hA => hmux ⟨hA, by omega⟩
      have hp0' : pc0 = 0 ∨ pc0 = 4 := by omega
      simp only [LockInv]
      refine ⟨h0, h1, hp0, by omega, ?_, ?_, ?_⟩
      · rw [hheld]
        simp [hA0]
      · intro hA
        exact hA0 hA.1
      · cases fz with
        | false =>
          have hcalls0 : ¬(1 ≤ callsMade pc0) := fun hge => by
            have := hc2 rfl hge
            omega
          have hcp0 : callsMade pc0 = 0 := by omega
          refine ⟨false, ?_, ?_, ?_⟩
          · rw [htr, hcp0]
            simp [callsMade]
          · intro htf
            cases htf
          · intro _ hcalls
            exact absurd hcalls hcalls0
        | true =>
          rcases hp0' with rfl | rfl
          · refine ⟨false, ?_, ?_, ?_⟩
            · rw [htr]
              simp [callsMade]
            · intro htf
              cases htf
            · intro _ hcalls
              simp [callsMade] at hcalls
          · refine ⟨true, ?_, ?_, ?_⟩
            · rw [htr]
              simp [callsMade, List.replicate_succ]
            · intro _ _
              rfl
            · intro hff
              cases hff
    · show LockInv l ⟨lid0, lid1, pc0, 3, held, trace ++ [1]⟩
      have hA0 : ¬(1 ≤ pc0 ∧ pc0 ≤ 3) := fun hA => hmux ⟨hA, by omega⟩
      simp only [LockInv]
      refine ⟨h0, h1, hp0, by omega, ?_, ?_, ?_⟩
      · rw [hheld]
        simp [hA0]
      · intro hA
        exact hA0 hA.1
      · cases fz with
        | false =>
          have hcalls0 : ¬(1 ≤ callsMade pc0) := fun hge => by
            have := hc2 rfl hge
            omega
          have hcp0 : callsMade pc0 = 0 := by omega
          refine ⟨false, ?_, ?_, ?_⟩
          · rw [htr, hcp0]
            simp [callsMade, List.replicate_succ]
          · intro htf
            cases htf
          · intro _ hcalls
            exact absurd hcalls hcalls0
        | true =>
          have hp04 : pc0 = 4 := hc1 rfl (by simp [callsMade])
          subst hp04
          refine ⟨true, ?_, ?_, ?_⟩
          · rw [htr]
            simp [callsMade, List.replicate_succ]
          · intro _ _
            trivial
          · intro hff
            cases hff
    · show LockInv l ⟨lid0, lid1, pc0, 4, held.erase lid1, trace⟩
      have hA0 : ¬(1 ≤ pc0 ∧ pc0 ≤ 3) := fun hA => hmux ⟨hA, by omega⟩
      simp only [LockInv]
      refine ⟨h0, h1, hp0, by omega, ?_, ?_, fz, ?_, ?_, ?_⟩
      · rw [hheld, h1]
        simp [hA0]
      · intro hA
        omega
      · rw [htr]
        simp [callsMade]
      · intro hfz hcalls
        exact hc1 hfz (by simpa [callsMade] using hcalls)
      · intro _ _
        trivial
    · exact ⟨h0, h1, hp0, hp1, hheld, hmux, fz, htr, hc1, hc2⟩
  · -- other thread ids: no step
    exact ⟨h0, h1, hp0, hp1, hheld, hmux, fz, htr, hc1, hc2⟩

theorem lockInv_init (l : Nat) : LockInv l (initThreads l l) := by
  refine ⟨rfl, rfl, by simp [initThreads], by simp [initThreads],
    by simp [initThreads], by simp [initThreads],
    true, by simp [initThreads, callsMade], ?_, ?_⟩
  · intro _ hcalls
    simp [initThreads, callsMade] at hcalls
  · intro hff
    cases hff

theorem lockInv_run (l : Nat) (sched : List Nat) (s : TwoThreads)
    (h : LockInv l s) : LockInv l (runSchedule s sched) := by
  induction sched generalizing s with
  | nil => exact h
  | cons tid rest ih => exact ih (threadStep s tid) (lockInv_step l s tid h)

theorem switches_cons_replicate (n x : Nat) :
    switches (x :: List.replicate n x) = 0 := by
  induction n with
  | zero => rfl
  | succ m ih =>
    rw [List.replicate_succ]
    show (if x = x then 0 else 1) + switches (x :: List.replicate m x) = 0
    simp [ih]

theorem switches_replicate (n x : Nat) : switches (List.replicate n x) = 0 := by
  cases n with
  | zero => rfl
  | succ m =>
    rw [List.replicate_succ]
    exact switches_cons_replicate m x

theorem switches_replicate_append (a b x y : Nat) :
    switches (List.replicate a x ++ List.replicate b y) ≤ 1 := by
  induction a with
  | zero => simp [switches_replicate]
  | succ m ih =>
    cases m with
    | zero =>
      cases b with
      | zero =>
        show (0 : Nat) ≤ 1
        omega
      | succ b' =>
        show (if x = y then 0 else 1) + switches (y :: List.replicate b' y) ≤ 1
        rw [switches_cons_replicate]
        split <;> omega
    | succ m' =>
      show (if x = x then 0 else 1)
        + switches (List.replicate (m' + 1) x ++ List.replicate b y) ≤ 1
      rw [if_pos rfl, Nat.zero_add]
      exact ih


/-- C8 (amended): two concurrent same-user operations never interleave
their external calls when they use the same lock object — which the
registry guarantees only while no eviction intervenes; if the sweep
evicts the user's entry between the two acquisitions, the second
operation receives a fresh lock object and a schedule interleaving their
external calls exists; operations for different user ids receive
different lock objects and are not serialized against each other. -/
theorem per_user_serialization (l : Nat) (sched : List Nat) :
    serializedTrace (runSchedule (initThreads l l) sched).trace = true ∧
    (get_user_lock 1 0 ⟨[], 0⟩).1 = 0 ∧
    (get_user_lock 1 3601 (get_user_lock 1 0 ⟨[], 0⟩).2).1 = 1 ∧
    (runSchedule (initThreads 0 1) [0, 0, 1, 1, 1, 1, 0]).trace = [0, 1, 1, 0] ∧
    serializedTrace [0, 1, 1, 0] = false ∧
    (get_user_lock 2 5 (get_user_lock 1 0 ⟨[], 0⟩).2).1 = 1 := by
  refine ⟨?_, rfl, rfl, rfl, rfl, rfl⟩
  obtain ⟨-, -, -, -, -, -, fz, htr, -, -⟩ := lockInv_run l sched _ (lockInv_init l)
  simp only [serializedTrace, decide_eq_true_eq]
  rw [htr]
  cases fz <;> simp [switches_replicate_append]

/-- Counterexample to C8 as stated: after the sweep evicts user 1's
entry (idle past the threshold), the user's second operation receives
lock object 1 while the first still uses lock object 0; running the two
commits with these distinct lock objects under a concrete schedule
interleaves their external calls as 0,1,1,0 — not serialized. -/
theorem same_user_interleaving_cex :
    (get_user_lock 1 0 ⟨[], 0⟩).1 = 0 ∧
    (get_user_lock 1 3601 (get_user_lock 1 0 ⟨[], 0⟩).2).1 = 1 ∧
    (runSchedule (initThreads 0 1) [0, 0, 1, 1, 1, 1, 0]).trace = [0, 1, 1, 0] ∧
    serializedTrace [0, 1, 1, 0] = false := by decide
